import Mathlib

/-!
Verification of the Blockly code-generator core (`src/core/generator.js`) of
the dBlockly repository.

The generator walks a workspace's tree of connected blocks and emits source
text.  Pure JavaScript functions are embedded as Lean functions; JS numbers
used as precedence orders are embedded as `Nat` (the `isNaN` entry guard of
`valueToCode` cannot fire on a genuine number and is therefore not
representable on the `Nat` embedding of the caller-supplied order; the
possibly-absent / NaN order slot of a translator tuple IS represented, as
`Option Nat`).  JS exceptions become `Except GenError`.  The per-language
hooks that the repository does not define in `src/` (the translation rules,
`init`/`finish`/`scrubNakedValue`, the `scrub_` post-processing hook and the
Name Database `variableDB_`) are modelled from the spec where noted.
-/

/-! ## JavaScript string/number semantics helpers -/

/-- Character class of the JS regex `\s` (whitespace), as used by the
whitespace-scrubbing regexes of `workspaceToCode`. -/
def isJsWs (c : Char) : Bool :=
  c = ' ' ∨ c = '\t' ∨ c = '\n' ∨ c = '\r' ∨ c = '\x0b' ∨ c = '\x0c' ∨
  c = '\u00A0' ∨ c = '\u1680' ∨ (0x2000 ≤ c.toNat ∧ c.toNat ≤ 0x200A) ∨
  c = '\u2028' ∨ c = '\u2029' ∨ c = '\u202F' ∨ c = '\u205F' ∨ c = '\u3000' ∨
  c = '\uFEFF'

/-- Character class of the JS regex `.` without the `s` flag: any character
except a line terminator.  Used by `prefixLines`' regex `\n(.)`. -/
def jsDot (c : Char) : Bool :=
  ¬(c = '\n' ∨ c = '\r' ∨ c = '\u2028' ∨ c = '\u2029')

/-- Digit-string accumulator used by `jsStringToNumber`. -/
def digitsToNat (l : List Char) : Nat :=
  l.foldl (fun a c => a * 10 + (c.toNat - 48)) 0

/-- JS `ToNumber` on a string, restricted to the shapes that occur here:
`""` converts to `0`, an all-digit string to its value, anything else
(such as `"string"`) to NaN, represented as `none`. -/
def jsStringToNumber (s : String) : Option Nat :=
  if s.data.isEmpty then some 0
  else if s.data.all Char.isDigit then some (digitsToNat s.data)
  else none

/-- JS loose equality `b == s` between a boolean and a string: both sides
convert to numbers, and NaN compares unequal to everything. -/
def jsLooseEqBoolString (b : Bool) (s : String) : Bool :=
  match jsStringToNumber s with
  | none => false
  | some n => (if b then 1 else 0) = n

/-! ## Data model -/

/-- Result of one translation rule or of `blockToCode` (source doc: "For
statement blocks, the generated code.  For value blocks, an array containing
the generated code and an operator order value").  The order slot of a tuple
is `Option Nat`: `none` stands for a NaN/undefined order, which the source
detects with `isNaN(innerOrder)`. -/
inductive CodeResult where
  | str (code : String)
  | tuple (code : String) (order : Option Nat)
deriving DecidableEq, Repr

/-- The string component of a result: a tuple's `code[0]`, a plain string
itself (`workspaceToCode` does this unpacking for top-level blocks). -/
def CodeResult.codeStr : CodeResult → String
  | .str s => s
  | .tuple s _ => s

/-- The exceptions thrown by `generator.js` (JS `throw '...'` of message
strings, plus the runtime `TypeError` that `statementToCode` would hit when
calling `.replace` on an array).  `GenError.render` recovers the exact
message text of each `throw`. -/
inductive GenError where
  | unknownType (lang type : String)
  | expectingTuple (type : String)
  | invalidOrder (type : String)
  | expectingCode (type : String)
  | replaceNotAFunction
deriving DecidableEq, Repr

/-- The message string of each error, exactly as thrown by the source. -/
def GenError.render : GenError → String
  | .unknownType lang ty =>
      "Language \"" ++ lang ++
        "\" does not know how to generate code for block type \"" ++
        ty ++ "\"."
  | .expectingTuple ty => "Expecting tuple from value block \"" ++ ty ++ "\"."
  | .invalidOrder ty => "Expecting valid order from value block \"" ++ ty ++ "\"."
  | .expectingCode ty => "Expecting code from statement block \"" ++ ty ++ "\"."
  | .replaceNotAFunction => "TypeError: code.replace is not a function"

/-- A block of the workspace graph (spec section 3): a type tag, a disabled
flag, a comment string (empty when absent), whether it has an output
connection (value block), its connected named inputs (value and statement
inputs alike, as reached by `getInputTargetBlock`), and the next-linked
block.  The generator requires the graph to be acyclic along these links;
the inductive type makes that structural. -/
inductive Block where
  | mk (type : String) (disabled : Bool) (comment : String)
       (outputConnection : Bool) (inputs : List (String × Block))
       (next : Option Block)

/-- The block's type tag. -/
def Block.type : Block → String
  | .mk t _ _ _ _ _ => t

/-- The block's disabled flag. -/
def Block.disabled : Block → Bool
  | .mk _ d _ _ _ _ => d

/-- The block's comment text (empty when it has none). -/
def Block.comment : Block → String
  | .mk _ _ c _ _ _ => c

/-- Whether the block has an output connection (is a value block). -/
def Block.outputConnection : Block → Bool
  | .mk _ _ _ o _ _ => o

/-- The block's connected inputs. -/
def Block.inputs : Block → List (String × Block)
  | .mk _ _ _ _ i _ => i

/-- The block connected to this block's next connection,
`block.nextConnection && block.nextConnection.targetBlock()`. -/
def Block.next : Block → Option Block
  | .mk _ _ _ _ _ n => n

/-- `block.getInputTargetBlock(name)`: the block connected at the named
input, or null when the input is absent or unconnected. -/
def Block.getInputTargetBlock (b : Block) (name : String) : Option Block :=
  (b.inputs.find? (fun p => p.1 == name)).map Prod.snd

/-- A code generator for one language (`Blockly.Generator`): its language
name `name_`, and the per-language binding surface that `src/` consults but
does not define, modelled from the spec as abstract function parameters: the
mapping from a block's type tag to its translation rule (the source's
dynamic `this[block.type]` lookup), the `finish` hook, and the optional
`scrubNakedValue` hook. -/
structure Generator where
  name_ : String
  rules : String → Option (Block → CodeResult)
  finish : String → String
  scrubNakedValue : Option (String → String)

/-! ## blockToCode -/

/-- `Blockly.Generator.prototype.blockToCode` on a non-null block.  A
disabled block is skipped in favour of its next-linked block.  An enabled
block with no registered rule throws the unsupported-block-type error.
Otherwise the rule runs and its string component passes through the `scrub_`
hook.  `scrub_` is not defined in `src/`; it is modelled from the spec: "a
block-level post-processing hook (`scrub`) that appends any trailing comment
text and recursively appends the code for the block's next-linked block (for
statement-type blocks)". -/
def blockToCodeSome (gen : Generator) : Block → Except GenError CodeResult
  | .mk ty dis com out inputs next =>
    if dis then
      match next with
      | none => .ok (.str "")
      | some nb => blockToCodeSome gen nb
    else
      match gen.rules ty with
      | none => .error (.unknownType gen.name_ ty)
      | some func =>
        match func (.mk ty dis com out inputs next) with
        | .tuple code ord => .ok (.tuple (code ++ com) ord)
        | .str code =>
          match next with
          | none => .ok (.str (code ++ com))
          | some nb =>
            match blockToCodeSome gen nb with
            | .error e => .error e
            | .ok nr => .ok (.str (code ++ com ++ nr.codeStr))

/-- `blockToCode` including the null-block case: returns `''` when the
block is null. -/
def blockToCode (gen : Generator) : Option Block → Except GenError CodeResult
  | none => .ok (.str "")
  | some b => blockToCodeSome gen b

/-! ## valueToCode -/

/-- `Blockly.Generator.prototype.valueToCode`.  The caller-supplied `order`
is a genuine number (embedded as `Nat`), so the source's `isNaN(order)`
entry guard cannot fire and is not represented.  The strict comparison
`tuple === ''` is true exactly for the string result `""`. -/
def valueToCode (gen : Generator) (block : Block) (name : String)
    (order : Nat) : Except GenError String :=
  match block.getInputTargetBlock name with
  | none => .ok ""
  | some targetBlock =>
    match blockToCodeSome gen targetBlock with
    | .error e => .error e
    | .ok (.str s) =>
        if s = "" then .ok ""
        else .error (.expectingTuple targetBlock.type)
    | .ok (.tuple code innerOrd) =>
        match innerOrd with
        | none => .error (.invalidOrder targetBlock.type)
        | some innerOrder =>
          if code ≠ "" ∧ order ≤ innerOrder then
            if order = innerOrder ∨ order = 0 ∨ order = 99 then .ok code
            else .ok ("(" ++ code ++ ")")
          else .ok code

/-! ## prefixLines and statementToCode -/

/-- The ECMAScript GetSubstitution interpretation of a string replacement
for a regex with exactly ONE capture group: `$$` becomes `$`, `$&` the
matched text, `` $\x60 `` the portion of the subject before the match,
`$\x27` the portion after it, and `$1` (also written `$01`, and `$1`
followed by further digits, per the two-digit fallback) the captured text;
every other `$` sequence stays literal.  (With one capture group the spec's
two-digit rule `$nn` always falls back to the one-digit reading or to the
literal text, which this scanner reproduces output-for-output.) -/
def getSub1 (matched before after cap : List Char) : List Char → List Char
  | [] => []
  | c :: rest =>
    if c = '$' then
      match rest with
      | '$' :: rest2 => '$' :: getSub1 matched before after cap rest2
      | '&' :: rest2 => matched ++ getSub1 matched before after cap rest2
      | '\x60' :: rest2 => before ++ getSub1 matched before after cap rest2
      | '\x27' :: rest2 => after ++ getSub1 matched before after cap rest2
      | '0' :: '1' :: rest2 => cap ++ getSub1 matched before after cap rest2
      | '1' :: rest2 => cap ++ getSub1 matched before after cap rest2
      | rest2 => '$' :: getSub1 matched before after cap rest2
    else c :: getSub1 matched before after cap rest

/-- Global replacement of the regex `\n(.)` by the replacement template
`'\n' + repl + '$1'` on a character list, scanning left to right and
resuming after each match, as `String.prototype.replace` with a global
regex does.  The template passes through `getSub1` at every match (JS
applies GetSubstitution to the replacement string, so a `$` inside `repl`
is interpreted, not literal).  `pre` carries the portion of the original
text before the scan position, feeding `` $\x60 `` and `$\x27`. -/
def replaceNlDot (repl : List Char) : List Char → List Char → List Char
  | _, [] => []
  | pre, c :: rest =>
    if c = '\n' then
      match rest with
      | [] => ['\n']
      | c2 :: rest2 =>
        if jsDot c2 then
          getSub1 ['\n', c2] pre rest2 [c2] ('\n' :: repl ++ ['$', '1']) ++
            replaceNlDot repl (pre ++ ['\n', c2]) rest2
        else '\n' :: replaceNlDot repl (pre ++ ['\n']) (c2 :: rest2)
    else c :: replaceNlDot repl (pre ++ [c]) rest

/-- `Blockly.Generator.prototype.prefixLines`:
`prefix + text.replace(/\n(.)/g, '\n' + prefix + '$1')`.  The leading
`prefix +` is plain concatenation; the copy inside the replacement string
is subject to GetSubstitution. -/
def prefixLines (text pfx : String) : String :=
  pfx ++ String.mk (replaceNlDot pfx.data [] text.data)

/-- JS `typeof` of a `blockToCode` result: `"string"` for a statement
string, `"object"` for a tuple (an array). -/
def jsTypeofCode : CodeResult → String
  | .str _ => "string"
  | .tuple _ _ => "object"

/-- JS `!s` on a string: the negated ToBoolean, true exactly for `""`. -/
def jsNotString (s : String) : Bool := s = ""

/-- The guard condition of `statementToCode`, exactly as written in the
source: `!typeof code == "string"`, which by JS precedence is
`(!(typeof code)) == "string"`. -/
def statementGuard (code : CodeResult) : Bool :=
  jsLooseEqBoolString (jsNotString (jsTypeofCode code)) "string"

/-- `Blockly.Generator.prototype.statementToCode`.  When the guard fired on
a null target the source would additionally crash on `targetBlock.type`;
since the guard is never true this branch is unreachable and the null case
renders as `"null"`.  When the result is a tuple, the truthy array reaches
`prefixLines`, where `code.replace` is not a function: a JS `TypeError`. -/
def statementToCode (gen : Generator) (block : Block) (name : String) :
    Except GenError String :=
  let targetBlock := block.getInputTargetBlock name
  match blockToCode gen targetBlock with
  | .error e => .error e
  | .ok code =>
    if statementGuard code then
      .error (.expectingCode (match targetBlock with
        | some tb => tb.type
        | none => "null"))
    else
      match code with
      | .str s => .ok (if s ≠ "" then prefixLines s "  " else s)
      | .tuple _ _ => .error .replaceNotAFunction

/-! ## workspaceToCode and its whitespace scrubbing -/

/-- Index of the last `'\n'` in a character list, if any. -/
def lastNlIdx : List Char → Option Nat
  | [] => none
  | c :: rest =>
    match lastNlIdx rest with
    | some i => some (i + 1)
    | none => if c = '\n' then some 0 else none

/-- `code.replace(/^\s+\n/, '')`: the greedy leftmost match removes the
leading whitespace run up to and including its last newline, provided at
least one whitespace character precedes that newline. -/
def replaceLeadingBlank (l : List Char) : List Char :=
  let w := l.takeWhile isJsWs
  match lastNlIdx w with
  | some i => if 1 ≤ i then l.drop (i + 1) else l
  | none => l

/-- `code.replace(/\n\s+$/, '\n')`: the leftmost newline that is followed
only by (one or more) whitespace characters up to the end of the string,
together with that whitespace, is replaced by a single newline.  Working on
the reversed string, that newline is the last `'\n'` of the reversed
trailing whitespace run, and it must not be the string's final character. -/
def replaceTrailingBlank (l : List Char) : List Char :=
  let r := l.reverse
  let w := r.takeWhile isJsWs
  match lastNlIdx w with
  | some i =>
      if 1 ≤ i then
        (r.dropWhile isJsWs).reverse ++ (w.drop (i + 1)).reverse ++ ['\n']
      else l
  | none => l

/-- One step of the global replacement `[ \t]+\n` → `\n`: a space or tab
that is (transitively through spaces and tabs) followed by a newline is
dropped. -/
def trimStep (c : Char) (r : List Char) : List Char :=
  if (c = ' ' ∨ c = '\t') ∧ r.head? = some '\n' then r else c :: r

/-- `code.replace(/[ \t]+\n/g, '\n')`: every run of spaces and tabs that
sits immediately before a newline is removed. -/
def replaceLineTrailingWs (l : List Char) : List Char := l.foldr trimStep []

/-- The loop body of `workspaceToCode`: translate each top-level block,
unpack a tuple to its string component, apply `scrubNakedValue` to a truthy
line of a block with an output connection, and keep the truthy lines. -/
def topBlockLines (gen : Generator) : List Block → Except GenError (List String)
  | [] => .ok []
  | block :: rest =>
    match blockToCodeSome gen block with
    | .error e => .error e
    | .ok line =>
      match topBlockLines gen rest with
      | .error e => .error e
      | .ok rest' =>
        let s := line.codeStr
        if s ≠ "" then
          let s' := if block.outputConnection then
                      match gen.scrubNakedValue with
                      | some f => f s
                      | none => s
                    else s
          .ok (s' :: rest')
        else .ok rest'

/-- `Blockly.Generator.prototype.workspaceToCode`, parameterized by the
top-level blocks of `Blockly.mainWorkspace.getTopBlocks(true)`.  The
`init()` per-pass reset touches the function registry, which is modelled
separately as `GenState` and not consumed here.  After joining the per-block
lines with `'\n'` and applying the `finish` hook, the three final
whitespace-scrubbing replacements run in source order. -/
def workspaceToCode (gen : Generator) (topBlocks : List Block) :
    Except GenError String :=
  match topBlockLines gen topBlocks with
  | .error e => .error e
  | .ok lines =>
    let joined := String.intercalate "\n" lines
    let finished := gen.finish joined
    .ok (String.mk (replaceLineTrailingWs
      (replaceTrailingBlank (replaceLeadingBlank finished.data))))

/-! ## provideFunction_ and its registry state -/

/-- The per-pass mutable state of the function registry: the JS objects
`this.definitions_` and `this.functionNames_` as insertion-ordered
association lists, and the set of names the Name Database has handed out.
`variableDB_` itself is external to `src/`. -/
structure GenState where
  definitions_ : List (String × String)
  functionNames_ : List (String × String)
  variableDB_ : List String
deriving DecidableEq, Repr

/-- The registry state right after `init()`: everything empty. -/
def initGenState : GenState := ⟨[], [], []⟩

/-- JS object property read `obj[k]`: the value stored at the key, if any. -/
def lookupAssoc (l : List (String × String)) (k : String) : Option String :=
  (l.find? (fun p => p.1 == k)).map Prod.snd

/-- JS object property write `obj[k] = v`: overwrite the existing entry for
the key in place, or append a new one. -/
def setAssoc (l : List (String × String)) (k v : String) :
    List (String × String) :=
  match l with
  | [] => [(k, v)]
  | (k0, v0) :: rest =>
      if k0 == k then (k0, v) :: rest else (k0, v0) :: setAssoc rest k v

/-- Number of entries stored under a key (a JS object can hold at most
one). -/
def countKey (l : List (String × String)) (k : String) : Nat :=
  (l.filter (fun p => p.1 == k)).length

/-- The k-th candidate name tried for a desired name: the name itself, then
the name suffixed with 2, 3, .... -/
def candName (desired : String) (k : Nat) : String :=
  if k = 0 then desired else desired ++ toString (k + 1)

/-- Modelled from the spec: the Name Database (`variableDB_`, external to
`src/`) "resolves desired identifier names to collision-free actual names
within a naming category"; `getDistinctName` returns the first candidate
not already in use.  Among `used.length + 1` distinct candidates one is
always free, so the fallback arm is unreachable. -/
def getDistinctName (used : List String) (desired : String) : String :=
  match (List.range (used.length + 1)).find?
      (fun k => ¬ used.contains (candName desired k)) with
  | some k => candName desired k
  | none => desired

/-- `Blockly.Generator.prototype.FUNCTION_NAME_PLACEHOLDER_`. -/
def FUNCTION_NAME_PLACEHOLDER_ : String := "\x7bleCUI8hutHZI4480Dc\x7d"

/-- The ECMAScript GetSubstitution interpretation of a string replacement
for a regex with NO capture groups (the placeholder regex has none): `$$`
becomes `$`, `$&` the matched text, `` $\x60 `` the portion before the
match, `$\x27` the portion after it; every other `$` sequence — including
all `$digit` forms, since no capture exists — stays literal. -/
def getSub0 (matched before after : List Char) : List Char → List Char
  | [] => []
  | c :: rest =>
    if c = '$' then
      match rest with
      | '$' :: rest2 => '$' :: getSub0 matched before after rest2
      | '&' :: rest2 => matched ++ getSub0 matched before after rest2
      | '\x60' :: rest2 => before ++ getSub0 matched before after rest2
      | '\x27' :: rest2 => after ++ getSub0 matched before after rest2
      | rest2 => '$' :: getSub0 matched before after rest2
    else c :: getSub0 matched before after rest

/-- Fuel-indexed global string replacement; with fuel at least the subject
length and a nonempty pattern this is JS
`String.prototype.replace(/pat/g, repl)`: scan left to right, replace each
match by the GetSubstitution reading of `repl` (the pattern is a literal
regex with no capture groups, so the match is the pattern itself), resume
after it.  `pre` carries the consumed portion of the original subject. -/
def replaceAllFuel (pat repl : List Char) :
    Nat → List Char → List Char → List Char
  | 0, _, l => l
  | _ + 1, _, [] => []
  | n + 1, pre, c :: rest =>
    if pat.isPrefixOf (c :: rest) then
      getSub0 pat pre ((c :: rest).drop pat.length) repl ++
        replaceAllFuel pat repl n (pre ++ pat) ((c :: rest).drop pat.length)
    else c :: replaceAllFuel pat repl n (pre ++ [c]) rest

/-- JS `s.replace(/pat/g, repl)` for a fixed (nonempty) literal pattern
string, `$`-substitution included. -/
def jsReplaceAll (s pat repl : String) : String :=
  String.mk (replaceAllFuel pat.data repl.data s.data.length [] s.data)

/-- `Blockly.Generator.prototype.provideFunction_` as a state transformer:
if the stored definition text for `desiredName` is truthy (present and
non-empty), return the previously assigned actual name; otherwise obtain a
distinct name from the Name Database, join the body lines, substitute the
placeholder, and store both.  In the memo branch the source returns
`this.functionNames_[desiredName]`, which is always set whenever
`definitions_[desiredName]` is truthy; the `getD ""` default is
unreachable. -/
def provideFunction_ (st : GenState) (desiredName : String)
    (code : List String) : String × GenState :=
  let stored := lookupAssoc st.definitions_ desiredName
  let truthy : Bool := match stored with
    | some s => s != ""
    | none => false
  if truthy then
    ((lookupAssoc st.functionNames_ desiredName).getD "", st)
  else
    let functionName := getDistinctName st.variableDB_ desiredName
    let body := jsReplaceAll (String.intercalate "\n" code)
      FUNCTION_NAME_PLACEHOLDER_ functionName
    (functionName,
      { definitions_ := setAssoc st.definitions_ desiredName body,
        functionNames_ := setAssoc st.functionNames_ desiredName functionName,
        variableDB_ := functionName :: st.variableDB_ })

/-! ## Concrete test fixtures -/

/-- Translation rules of a small test language: two value blocks with fixed
orders, statement blocks, a rule that (wrongly) returns a plain string in a
value position, and a rule returning an empty code string. -/
def fixRules : String → Option (Block → CodeResult) := fun t =>
  if t == "val99" then some (fun _ => .tuple "a + b" (some 99))
  else if t == "val7" then some (fun _ => .tuple "a + b" (some 7))
  else if t == "val5" then some (fun _ => .tuple "a + b" (some 5))
  else if t == "helloStmt" then some (fun _ => .str "print(hello)\n")
  else if t == "worldStmt" then some (fun _ => .str "print(world)\n")
  else if t == "abcStmt" then some (fun _ => .str "abc")
  else if t == "plainStr" then some (fun _ => .str "oops")
  else none

/-- A test generator over `fixRules` with an identity `finish` hook. -/
def fixGen : Generator := ⟨"JavaScript", fixRules, id, none⟩

/-- A value block translating to `("a + b", 99)`. -/
def fixVal99 : Block := .mk "val99" false "" true [] none

/-- A value block translating to `("a + b", 7)`. -/
def fixVal7 : Block := .mk "val7" false "" true [] none

/-- A value block translating to `("a + b", 5)`. -/
def fixVal5 : Block := .mk "val5" false "" true [] none

/-- A disabled block with no next link: its translation is `''`. -/
def fixDisabled : Block := .mk "whatever" true "" true [] none

/-- A value block whose rule wrongly returns a plain string. -/
def fixPlain : Block := .mk "plainStr" false "" false [] none

/-- A block holding the given block at its value input `"VAL"`. -/
def fixHost (inner : Block) : Block :=
  .mk "host" false "" false [("VAL", inner)] none

/-- A block with no connected inputs at all. -/
def fixEmptyHost : Block := .mk "host" false "" false [] none

/-! ## Spec-side definition for claim C1 -/

/-- The parenthesization condition exactly as claim C1 words it: the inner
order is at or above `maxOrder`, the two differ, and NEITHER the inner
order NOR `maxOrder` is the atomic level 0 or the no-precedence sentinel
99.  (The source only tests `maxOrder` against the sentinels.) -/
def specParenCond (innerOrder maxOrder : Nat) : Bool :=
  maxOrder ≤ innerOrder && innerOrder != maxOrder &&
  innerOrder != 0 && innerOrder != 99 && maxOrder != 0 && maxOrder != 99

/-- A statement block translating to `"print(world)\n"`, end of a chain. -/
def fixWorld : Block := .mk "worldStmt" false "" false [] none

/-- A disabled block (with no registered rule at all) in the middle of a
chain, next-linked to `fixWorld`. -/
def fixSkip : Block := .mk "skipStmt" true "" false [] (some fixWorld)

/-- The head of the chain `fixHello → fixSkip → fixWorld`. -/
def fixHello : Block := .mk "helloStmt" false "" false [] (some fixSkip)

/-- An enabled block whose type has no registered rule. -/
def fixUnknown : Block := .mk "mystery" false "" false [] none

/-- A statement block translating to `"abc"` with no trailing newline. -/
def fixAbc : Block := .mk "abcStmt" false "" false [] none

/-- A test generator whose `finish` hook always emits a newline-terminated
text containing non-whitespace. -/
def fixGenNl : Generator :=
  ⟨"JavaScript", fixRules, fun s => "def helper()\n" ++ s ++ "\n", none⟩

/-! ## Result predicates used by claim statements -/

/-- Whether a `blockToCode` outcome is the unsupported-block-type error for
the given language and type tag. -/
def isUnknownTypeErrorFor (r : Except GenError CodeResult)
    (lang ty : String) : Bool :=
  match r with
  | .error (.unknownType l t) => l == lang && t == ty
  | _ => false

/-- Whether a `statementToCode` outcome is the expecting-code error. -/
def raisesExpectingCode (r : Except GenError String) : Bool :=
  match r with
  | .error (.expectingCode _) => true
  | _ => false

/-- Whether a character list ends with exactly one newline: its final
character is `'\n'` and the character before it (if any) is not. -/
def endsExactlyOneNl (l : List Char) : Bool :=
  match l.reverse with
  | '\n' :: rest => !(rest.head? == some '\n')
  | _ => false

/-- Whether no space or tab stands immediately before a newline anywhere in
the character list ("no trailing horizontal whitespace on any line"). -/
def noHWsBeforeNl : List Char → Bool
  | [] => true
  | c :: rest =>
    if (c = ' ' ∨ c = '\t') ∧ rest.head? = some '\n' then false
    else noHWsBeforeNl rest

/-! ## Spec-side definitions for claim C8 -/

/-- Split a character list at every newline; always returns at least one
(possibly empty) line. -/
def splitNl : List Char → List (List Char)
  | [] => [[]]
  | c :: rest =>
    if c = '\n' then [] :: splitNl rest
    else
      match splitNl rest with
      | [] => [[c]]
      | l :: ls => (c :: l) :: ls

/-- Join lines with single newlines (inverse of `splitNl`). -/
def joinNl : List (List Char) → List Char
  | [] => []
  | [l] => l
  | l :: l2 :: ls => l ++ '\n' :: joinNl (l2 :: ls)

/-- The reading of claim C8: `prefixLines` prepends the prefix to the first
line and to EVERY line that follows an embedded newline — that is, it
splits the text into lines, prepends the prefix to each, and rejoins. -/
def specPrefixLines (text pfx : String) : String :=
  String.mk (joinNl ((splitNl text.data).map (fun l => pfx.data ++ l)))

/-- Whether every newline in the list is immediately followed by a
character that the JS dot matches (no empty line, no line starting with a
line terminator, no trailing newline). -/
def nlAlwaysBeforeDot : List Char → Bool
  | [] => true
  | c :: rest =>
    if c = '\n' then
      match rest with
      | [] => false
      | c2 :: _ => jsDot c2 && nlAlwaysBeforeDot rest
    else nlAlwaysBeforeDot rest

/-! ## Infrastructure lemmas -/

theorem Block.sizeOf_next {b nb : Block} (h : b.next = some nb) :
    sizeOf nb < sizeOf b := by
  cases b with
  | mk t d c o i n =>
    cases n with
    | none => simp [Block.next] at h
    | some x =>
      simp [Block.next] at h
      subst h
      simp
      omega

/-- Induction along the next-link chain of a block, the only recursion the
generator performs. -/
theorem Block.nextInduction (P : Block → Prop)
    (step : ∀ b : Block, (∀ nb : Block, b.next = some nb → P nb) → P b) :
    ∀ b : Block, P b := by
  intro b
  have key : ∀ n : Nat, ∀ b : Block, sizeOf b ≤ n → P b := by
    intro n
    induction n with
    | zero =>
      intro b hb
      exact absurd hb (by cases b; simp)
    | succ m ih =>
      intro b hb
      apply step
      intro nb hnb
      exact ih nb (by have := Block.sizeOf_next hnb; omega)
  exact key (sizeOf b) b (Nat.le_refl _)

theorem string_append_right_ne (s t : String) (h : t ≠ "") : s ++ t ≠ s := by
  intro he
  have := congrArg String.length he
  rw [String.length_append] at this
  have ht : t.length ≠ 0 := by
    intro h0
    exact h (by cases t with
      | mk l =>
        cases l with
        | nil => rfl
        | cons c cs => simp [String.length] at h0)
  omega

/-! ## C1: parenthesization condition of valueToCode -/

/-- C1 (counterexample): the claim requires that the inner order, too, be
tested against the sentinel levels, but the source only tests `maxOrder`.
With inner order 99 (the no-precedence sentinel) and `maxOrder` 5 the claim
predicts no parentheses, yet the code parenthesizes. -/
theorem valueToCode_inner_sentinel_cex :
    valueToCode fixGen (fixHost fixVal99) "VAL" 5 = .ok "(a + b)" ∧
    specParenCond 99 5 = false ∧ ("(a + b)" : String) ≠ "a + b" := by
  refine ⟨rfl, rfl, ?_⟩
  decide

/-- C1 (amended): for a connected value block whose translation yields the
tuple `(s, n)`, the returned code is `s` wrapped in parentheses exactly when
`s` is non-empty, `n` is at or above `maxOrder`, the two differ, and
`maxOrder` itself is neither the atomic level 0 nor the no-precedence
sentinel 99 (the inner order being a sentinel does not matter); in every
other case — in particular whenever `n = maxOrder` — the code is returned
unwrapped. -/
theorem valueToCode_paren_iff (gen : Generator) (block : Block)
    (name : String) (maxOrder : Nat) (tb : Block) (s : String) (n : Nat)
    (ht : block.getInputTargetBlock name = some tb)
    (hb : blockToCodeSome gen tb = .ok (.tuple s (some n))) :
    valueToCode gen block name maxOrder =
      .ok (if s ≠ "" ∧ maxOrder ≤ n ∧ maxOrder ≠ n ∧ maxOrder ≠ 0 ∧
             maxOrder ≠ 99
           then "(" ++ s ++ ")" else s) := by
  simp only [valueToCode, ht, hb]
  split_ifs with h1 h2 h3 <;> first
    | rfl
    | (exfalso; tauto)

/-- C1 (witness): the amended theorem applied to a concrete generator and
block: inner order 7 against `maxOrder` 3 wraps. -/
theorem valueToCode_paren_iff_witness :
    valueToCode fixGen (fixHost fixVal7) "VAL" 3 =
      .ok (if ("a + b" : String) ≠ "" ∧ 3 ≤ 7 ∧ 3 ≠ 7 ∧ 3 ≠ 0 ∧ 3 ≠ 99
           then "(" ++ "a + b" ++ ")" else "a + b") :=
  valueToCode_paren_iff fixGen (fixHost fixVal7) "VAL" 3 fixVal7 "a + b" 7
    rfl rfl

/-! ## C2: single pair of parentheses for weaker inner precedence -/

/-- C2 (counterexample): the claim conditions only the INNER order away
from the sentinels; with `maxOrder = 0` (atomic) and inner order 5 it
predicts one pair of parentheses, yet the code returns the inner code
unwrapped because `maxOrder` is the atomic sentinel. -/
theorem valueToCode_atomic_cex :
    valueToCode fixGen (fixHost fixVal5) "VAL" 0 = .ok "a + b" ∧
    (0 < 5 ∧ (5 : Nat) ≠ 0 ∧ (5 : Nat) ≠ 99) ∧
    ("a + b" : String) ≠ "(a + b)" := by
  refine ⟨rfl, by decide, ?_⟩
  decide

/-- C2 (amended): for a connected value block whose translation yields a
non-empty code string with order strictly above `maxOrder`, where
`maxOrder` itself is neither 0 nor the sentinel 99, the returned code is
the inner code wrapped in exactly one pair of parentheses. -/
theorem valueToCode_wraps_once (gen : Generator) (block : Block)
    (name : String) (maxOrder : Nat) (tb : Block) (s : String) (n : Nat)
    (ht : block.getInputTargetBlock name = some tb)
    (hb : blockToCodeSome gen tb = .ok (.tuple s (some n)))
    (hs : s ≠ "") (hlt : maxOrder < n) (h0 : maxOrder ≠ 0)
    (h99 : maxOrder ≠ 99) :
    valueToCode gen block name maxOrder = .ok ("(" ++ s ++ ")") := by
  simp only [valueToCode, ht, hb]
  have hle : maxOrder ≤ n := Nat.le_of_lt hlt
  have hne : ¬(maxOrder = n ∨ maxOrder = 0 ∨ maxOrder = 99) := by
    push_neg
    exact ⟨Nat.ne_of_lt hlt, h0, h99⟩
  rw [if_pos ⟨hs, hle⟩, if_neg hne]

/-- C2 (witness): inner order 7 against non-sentinel `maxOrder` 3 yields
exactly `"(a + b)"`. -/
theorem valueToCode_wraps_once_witness :
    valueToCode fixGen (fixHost fixVal7) "VAL" 3 = .ok ("(" ++ "a + b" ++ ")") :=
  valueToCode_wraps_once fixGen (fixHost fixVal7) "VAL" 3 fixVal7 "a + b" 7
    rfl rfl (by decide) (by decide) (by decide) (by decide)

/-! ## C7: valueToCode contract on missing, disabled and malformed inputs -/

/-- C7 (confirmed): `valueToCode` returns `''` when nothing is connected at
the named input; returns `''` when the connected block's translation came
back as the empty string (a disabled block); and throws the
expecting-tuple error, naming the offending block's type, when a connected
enabled block's translation is a non-empty plain string instead of a
tuple. -/
theorem valueToCode_contract (gen : Generator) (block : Block)
    (name : String) (order : Nat) :
    (block.getInputTargetBlock name = none →
      valueToCode gen block name order = .ok "") ∧
    (∀ tb, block.getInputTargetBlock name = some tb →
      blockToCodeSome gen tb = .ok (.str "") →
      valueToCode gen block name order = .ok "") ∧
    (∀ tb s, block.getInputTargetBlock name = some tb →
      blockToCodeSome gen tb = .ok (.str s) → s ≠ "" →
      valueToCode gen block name order = .error (.expectingTuple tb.type) ∧
      (GenError.expectingTuple tb.type).render =
        "Expecting tuple from value block \"" ++ (tb.type ++ "\".")) := by
  refine ⟨?_, ?_, ?_⟩
  · intro h
    simp only [valueToCode, h]
  · intro tb ht hb
    simp [valueToCode, ht, hb]
  · intro tb s ht hb hs
    constructor
    · simp only [valueToCode, ht, hb]
      rw [if_neg hs]
    · simp [GenError.render, String.append_assoc]

/-- C7 (witness): the three branches at concrete inputs: an unconnected
input, a disabled connected block, and a rule returning the plain string
`"oops"`. -/
theorem valueToCode_contract_witness :
    valueToCode fixGen fixEmptyHost "VAL" 1 = .ok "" ∧
    valueToCode fixGen (fixHost fixDisabled) "VAL" 1 = .ok "" ∧
    valueToCode fixGen (fixHost fixPlain) "VAL" 1 =
      .error (.expectingTuple "plainStr") :=
  ⟨(valueToCode_contract fixGen fixEmptyHost "VAL" 1).1 rfl,
   (valueToCode_contract fixGen (fixHost fixDisabled) "VAL" 1).2.1
     fixDisabled rfl rfl,
   ((valueToCode_contract fixGen (fixHost fixPlain) "VAL" 1).2.2
     fixPlain "oops" rfl rfl (by decide)).1⟩

theorem blockToCodeSome_disabled (gen : Generator) (b : Block)
    (h : b.disabled = true) :
    blockToCodeSome gen b = blockToCode gen b.next := by
  cases b with
  | mk ty dis com out inputs next =>
    simp only [Block.disabled] at h
    subst h
    cases next <;> simp [blockToCodeSome, blockToCode, Block.next]

theorem blockToCodeSome_mk (gen : Generator) (ty : String) (dis : Bool)
    (com : String) (out : Bool) (inputs : List (String × Block))
    (next : Option Block) :
    blockToCodeSome gen (.mk ty dis com out inputs next) =
      if dis then
        (match next with
         | none => .ok (.str "")
         | some nb => blockToCodeSome gen nb)
      else
        (match gen.rules ty with
         | none => .error (.unknownType gen.name_ ty)
         | some func =>
           match func (.mk ty dis com out inputs next) with
           | .tuple code ord => .ok (.tuple (code ++ com) ord)
           | .str code =>
             match next with
             | none => .ok (.str (code ++ com))
             | some nb =>
               match blockToCodeSome gen nb with
               | .error e => .error e
               | .ok nr => .ok (.str (code ++ com ++ nr.codeStr))) := by
  rw [blockToCodeSome.eq_def]

theorem blockToCodeSome_error_shape (gen : Generator) :
    ∀ (b : Block) (e : GenError), blockToCodeSome gen b = .error e →
      ∃ t, gen.rules t = none ∧ e = .unknownType gen.name_ t := by
  intro b
  induction b using Block.nextInduction with
  | step b ih =>
    intro e he
    cases b with
    | mk ty dis com out inputs next =>
      rw [blockToCodeSome_mk] at he
      cases dis with
      | true =>
        cases next with
        | none => simp at he
        | some nb =>
          simp only [if_true, ite_true] at he
          exact ih nb rfl e he
      | false =>
        simp only [Bool.false_eq_true, if_false, ite_false] at he
        cases hr : gen.rules ty with
        | none =>
          rw [hr] at he
          have h2 : GenError.unknownType gen.name_ ty = e := by injection he
          exact ⟨ty, hr, h2.symm⟩
        | some func =>
          rw [hr] at he
          dsimp only at he
          cases hf : func (.mk ty false com out inputs next) with
          | tuple code ord => rw [hf] at he; simp at he
          | str code =>
            rw [hf] at he
            dsimp only at he
            cases next with
            | none => simp at he
            | some nb =>
              dsimp only at he
              cases hnb : blockToCodeSome gen nb with
              | error e2 =>
                rw [hnb] at he
                have h2 : e2 = e := by injection he
                obtain ⟨t, h3, h4⟩ := ih nb rfl e2 hnb
                exact ⟨t, h3, h2.symm.trans h4⟩
              | ok nr => rw [hnb] at he; simp at he

/-! ## C3: disabled-block transparency -/

/-- C3 (confirmed): in a chain A→B→C with B disabled and A, C enabled
(comment-free, with registered statement rules), `blockToCode` on A yields
exactly the concatenation of A's own code and C's code; and every disabled
block translates to exactly the translation of its next-linked block (the
empty string when it has none). -/
theorem blockToCode_disabled_transparent (gen : Generator) (a b c : Block)
    (fa fc : Block → CodeResult) (sa sc : String)
    (hda : a.disabled = false) (hdb : b.disabled = true)
    (hdc : c.disabled = false)
    (hna : a.next = some b) (hnb : b.next = some c) (hnc : c.next = none)
    (hca : a.comment = "") (hcc : c.comment = "")
    (hra : gen.rules a.type = some fa) (hfa : fa a = .str sa)
    (hrc : gen.rules c.type = some fc) (hfc : fc c = .str sc) :
    blockToCodeSome gen a = .ok (.str (sa ++ sc)) ∧
    (∀ d : Block, d.disabled = true →
      blockToCodeSome gen d = blockToCode gen d.next) := by
  have hC : blockToCodeSome gen c = .ok (.str sc) := by
    cases c with
    | mk tyC disC comC outC inC nC =>
      simp only [Block.disabled] at hdc
      simp only [Block.next] at hnc
      simp only [Block.comment] at hcc
      simp only [Block.type] at hrc
      subst hdc hnc hcc
      rw [blockToCodeSome_mk]
      simp only [Bool.false_eq_true, if_false, ite_false]
      rw [hrc]
      dsimp only
      rw [hfc]
      dsimp only
      rw [String.append_empty]
  have hB : blockToCodeSome gen b = .ok (.str sc) := by
    rw [blockToCodeSome_disabled gen b hdb, hnb]
    simp only [blockToCode]
    exact hC
  refine ⟨?_, fun d hd => blockToCodeSome_disabled gen d hd⟩
  cases a with
  | mk tyA disA comA outA inA nA =>
    simp only [Block.disabled] at hda
    simp only [Block.next] at hna
    simp only [Block.comment] at hca
    simp only [Block.type] at hra
    subst hda hna hca
    rw [blockToCodeSome_mk]
    simp only [Bool.false_eq_true, if_false, ite_false]
    rw [hra]
    dsimp only
    rw [hfa]
    dsimp only
    rw [hB]
    dsimp only [CodeResult.codeStr]
    rw [String.append_empty]

/-- C3 (witness): the concrete chain `fixHello → fixSkip → fixWorld` with
the middle block disabled produces the two enabled blocks' code
concatenated, and the disabled block is transparent. -/
theorem blockToCode_disabled_transparent_witness :
    blockToCodeSome fixGen fixHello =
      .ok (.str ("print(hello)\n" ++ "print(world)\n")) ∧
    blockToCodeSome fixGen fixSkip = blockToCode fixGen fixSkip.next :=
  ⟨(blockToCode_disabled_transparent fixGen fixHello fixSkip fixWorld
      (fun _ => .str "print(hello)\n") (fun _ => .str "print(world)\n")
      "print(hello)\n" "print(world)\n"
      rfl rfl rfl rfl rfl rfl rfl rfl rfl rfl rfl rfl).1,
   (blockToCode_disabled_transparent fixGen fixHello fixSkip fixWorld
      (fun _ => .str "print(hello)\n") (fun _ => .str "print(world)\n")
      "print(hello)\n" "print(world)\n"
      rfl rfl rfl rfl rfl rfl rfl rfl rfl rfl rfl rfl).2 fixSkip rfl⟩

/-! ## C6: unsupported block type -/

/-- C6 (confirmed): a non-null enabled block whose type tag has no
registered rule makes `blockToCode` fail with the unsupported-block-type
error, whose message names the language and the type tag; when a rule is
registered this error is never produced, not even by the rest of the
chain. -/
theorem blockToCode_unknown_type (gen : Generator) (b : Block)
    (hdis : b.disabled = false) :
    (gen.rules b.type = none →
      blockToCodeSome gen b = .error (.unknownType gen.name_ b.type) ∧
      (GenError.unknownType gen.name_ b.type).render =
        "Language \"" ++ gen.name_ ++
          "\" does not know how to generate code for block type \"" ++
          b.type ++ "\".") ∧
    (∀ f, gen.rules b.type = some f →
      isUnknownTypeErrorFor (blockToCodeSome gen b) gen.name_ b.type =
        false) := by
  constructor
  · intro hnone
    refine ⟨?_, rfl⟩
    cases b with
    | mk ty dis com out inputs next =>
      simp only [Block.disabled] at hdis
      simp only [Block.type] at hnone ⊢
      subst hdis
      rw [blockToCodeSome_mk]
      simp only [Bool.false_eq_true, if_false, ite_false]
      rw [hnone]
  · intro f hf
    cases hres : blockToCodeSome gen b with
    | ok r => simp [isUnknownTypeErrorFor]
    | error e =>
      obtain ⟨t, hnone, he⟩ := blockToCodeSome_error_shape gen b e hres
      subst he
      have hne : t ≠ b.type := by
        intro hEq
        rw [hEq, hf] at hnone
        cases hnone
      simp [isUnknownTypeErrorFor, hne]

/-- C6 (witness): the theorem applied to a block of unregistered type
`"mystery"` and to the registered `fixWorld` block. -/
theorem blockToCode_unknown_type_witness :
    blockToCodeSome fixGen fixUnknown =
      .error (.unknownType "JavaScript" "mystery") ∧
    isUnknownTypeErrorFor (blockToCodeSome fixGen fixWorld) "JavaScript"
      "worldStmt" = false :=
  ⟨((blockToCode_unknown_type fixGen fixUnknown rfl).1 rfl).1,
   (blockToCode_unknown_type fixGen fixWorld rfl).2
     (fun _ => .str "print(world)\n") rfl⟩

/-! ## C9: the malformed-statement guard is unreachable -/

/-- C9 (confirmed): the guard `!typeof code == "string"` of
`statementToCode` evaluates to false for every translation result, so
`statementToCode` never raises its expecting-code error on any input. -/
theorem statementToCode_guard_unreachable :
    (∀ code : CodeResult, statementGuard code = false) ∧
    (∀ (gen : Generator) (block : Block) (name : String),
      raisesExpectingCode (statementToCode gen block name) = false) := by
  have hg : ∀ code : CodeResult, statementGuard code = false := by
    intro code
    cases code <;> rfl
  refine ⟨hg, ?_⟩
  intro gen block name
  cases hres : blockToCode gen (block.getInputTargetBlock name) with
  | error e =>
    have hs : statementToCode gen block name = .error e := by
      simp only [statementToCode, hres]
    rw [hs]
    cases hob : block.getInputTargetBlock name with
    | none =>
      rw [hob] at hres
      simp [blockToCode] at hres
    | some tb =>
      rw [hob] at hres
      simp only [blockToCode] at hres
      obtain ⟨t, _, he⟩ := blockToCodeSome_error_shape gen tb e hres
      subst he
      rfl
  | ok code =>
    have hs : statementToCode gen block name =
        (match code with
         | .str s => .ok (if s ≠ "" then prefixLines s "  " else s)
         | .tuple _ _ => .error .replaceNotAFunction) := by
      simp only [statementToCode, hres, hg code, Bool.false_eq_true,
        if_false, ite_false]
      cases code <;> rfl
    rw [hs]
    cases code <;> rfl

/-! ## C5 and C10: provideFunction_ memoization -/

theorem toString_two : (toString 2 : String) = "2" := rfl

theorem getDistinctName_self_used (d : String) :
    getDistinctName [d] d = d ++ "2" := by
  unfold getDistinctName
  rw [show List.range ([d].length + 1) = [0, 1] from rfl]
  have hc0 : ([d].contains (candName d 0)) = true := by simp [candName]
  have hc1 : ([d].contains (candName d 1)) = false := by
    simp only [candName, if_neg (by decide : ¬ (1 = 0)), toString_two,
      List.contains_cons, List.contains_nil, Bool.or_false]
    exact beq_eq_false_iff_ne.mpr (string_append_right_ne d "2" (by decide))
  have hne : decide (d ++ "2" = d) = false :=
    decide_eq_false (string_append_right_ne d "2" (by decide))
  simp [List.find?, hc0, hc1, candName, toString_two, hne]

theorem lookupAssoc_single_hit (d v : String) :
    lookupAssoc [(d, v)] d = some v := by
  simp [lookupAssoc]

theorem countKey_single (d v : String) : countKey [(d, v)] d = 1 := by
  simp [countKey]

theorem provideFunction_fresh (st : GenState) (d : String) (body : List String)
    (h : lookupAssoc st.definitions_ d = none) :
    provideFunction_ st d body = (getDistinctName st.variableDB_ d,
      ⟨setAssoc st.definitions_ d (jsReplaceAll (String.intercalate "\n" body)
          FUNCTION_NAME_PLACEHOLDER_ (getDistinctName st.variableDB_ d)),
        setAssoc st.functionNames_ d (getDistinctName st.variableDB_ d),
        getDistinctName st.variableDB_ d :: st.variableDB_⟩) := by
  simp [provideFunction_, h]

theorem provideFunction_fresh_empty (st : GenState) (d : String)
    (body : List String) (h : lookupAssoc st.definitions_ d = some "") :
    provideFunction_ st d body = (getDistinctName st.variableDB_ d,
      ⟨setAssoc st.definitions_ d (jsReplaceAll (String.intercalate "\n" body)
          FUNCTION_NAME_PLACEHOLDER_ (getDistinctName st.variableDB_ d)),
        setAssoc st.functionNames_ d (getDistinctName st.variableDB_ d),
        getDistinctName st.variableDB_ d :: st.variableDB_⟩) := by
  simp [provideFunction_, h]

theorem provideFunction_memo_branch (st : GenState) (d : String)
    (body : List String) (v : String)
    (h : lookupAssoc st.definitions_ d = some v) (hv : v ≠ "") :
    provideFunction_ st d body =
      ((lookupAssoc st.functionNames_ d).getD "", st) := by
  simp [provideFunction_, h, hv]

theorem provideFunction_first (d : String) (bodyA : List String) :
    provideFunction_ initGenState d bodyA =
      (d, ⟨[(d, jsReplaceAll (String.intercalate "\n" bodyA)
              FUNCTION_NAME_PLACEHOLDER_ d)], [(d, d)], [d]⟩) := by
  rw [provideFunction_fresh initGenState d bodyA rfl]
  rfl

/-- C5 (counterexample): with a body that joins to the empty string, the
stored definition text is falsy, so the second call with the same logical
name re-allocates: it returns `"foo2"` where the first call returned
`"foo"`. -/
theorem provideFunction_empty_body_cex :
    (provideFunction_ initGenState "foo" []).1 = "foo" ∧
    (provideFunction_ (provideFunction_ initGenState "foo" []).2
      "foo" []).1 = "foo2" ∧
    ("foo" : String) ≠ "foo2" := by
  decide

/-- C5 (amended): provided the stored definition text of the first call
(the newline-joined, placeholder-substituted body) is non-empty, a second
`provideFunction_` call in the same pass with the same logical name
returns the same actual name, ignores the supplied body, changes no state
(so no new name is allocated), and the definitions registry holds exactly
one entry for the logical name. -/
theorem provideFunction_memoizes (d : String) (bodyA body2 : List String)
    (h : jsReplaceAll (String.intercalate "\n" bodyA)
      FUNCTION_NAME_PLACEHOLDER_ d ≠ "") :
    provideFunction_ (provideFunction_ initGenState d bodyA).2 d body2 =
      provideFunction_ initGenState d bodyA ∧
    countKey (provideFunction_ initGenState d bodyA).2.definitions_ d = 1 := by
  rw [provideFunction_first d bodyA]
  constructor
  · rw [provideFunction_memo_branch _ d body2 _ (lookupAssoc_single_hit d _) h]
    rw [lookupAssoc_single_hit d d]
    rfl
  · exact countKey_single d _

/-- C5 (witness): a non-empty body is memoized: the second call returns the
first call's name and state unchanged. -/
theorem provideFunction_memoizes_witness :
    provideFunction_ (provideFunction_ initGenState "foo" ["return 1;"]).2
      "foo" ["other"] = provideFunction_ initGenState "foo" ["return 1;"] ∧
    countKey (provideFunction_ initGenState "foo"
      ["return 1;"]).2.definitions_ "foo" = 1 :=
  provideFunction_memoizes "foo" ["return 1;"] ["other"] (by decide)

/-- C10 (confirmed): the memoization is keyed on the truthiness of the
stored definition text: when the first call's stored text is non-empty, a
repeat call returns the stored name with the state untouched (the name
database is not consulted); when it is empty, the repeat call allocates a
fresh name distinct from the first, returns it, and overwrites the
registry entry with the new body. -/
theorem provideFunction_truthiness (d : String) (bodyA body2 : List String) :
    (jsReplaceAll (String.intercalate "\n" bodyA)
        FUNCTION_NAME_PLACEHOLDER_ d ≠ "" →
      provideFunction_ (provideFunction_ initGenState d bodyA).2 d body2 =
        provideFunction_ initGenState d bodyA) ∧
    (jsReplaceAll (String.intercalate "\n" bodyA)
        FUNCTION_NAME_PLACEHOLDER_ d = "" →
      (provideFunction_ (provideFunction_ initGenState d bodyA).2 d
        body2).1 = d ++ "2" ∧
      d ++ "2" ≠ d ∧
      lookupAssoc (provideFunction_ (provideFunction_ initGenState d bodyA).2
          d body2).2.definitions_ d =
        some (jsReplaceAll (String.intercalate "\n" body2)
          FUNCTION_NAME_PLACEHOLDER_ (d ++ "2")) ∧
      countKey (provideFunction_ (provideFunction_ initGenState d bodyA).2
          d body2).2.definitions_ d = 1) := by
  constructor
  · intro h
    rw [provideFunction_first d bodyA]
    rw [provideFunction_memo_branch _ d body2 _ (lookupAssoc_single_hit d _) h]
    rw [lookupAssoc_single_hit d d]
    rfl
  · intro h
    rw [provideFunction_first d bodyA, h]
    dsimp only
    rw [provideFunction_fresh_empty _ d body2 (lookupAssoc_single_hit d "")]
    dsimp only
    rw [getDistinctName_self_used d]
    refine ⟨rfl, string_append_right_ne d "2" (by decide), ?_, ?_⟩
    · simp [setAssoc, lookupAssoc]
    · simp [setAssoc, countKey]

/-- C10 (witness): both branches of the truthiness theorem at concrete
inputs: a non-empty body memoizes, an empty body re-allocates `"bar2"`. -/
theorem provideFunction_truthiness_witness :
    provideFunction_ (provideFunction_ initGenState "foo" ["x"]).2
      "foo" ["y"] = provideFunction_ initGenState "foo" ["x"] ∧
    (provideFunction_ (provideFunction_ initGenState "bar" []).2
      "bar" ["z"]).1 = "bar2" :=
  ⟨(provideFunction_truthiness "foo" ["x"] ["y"]).1 (by decide),
   ((provideFunction_truthiness "bar" [] ["z"]).2 (by decide)).1⟩

/-! ## C8: prefixLines -/

theorem getSub1_cons_ne (m b a cap : List Char) (c : Char)
    (rest : List Char) (hc : ¬ c = '$') :
    getSub1 m b a cap (c :: rest) = c :: getSub1 m b a cap rest := by
  rw [getSub1.eq_def]
  simp [hc]

theorem getSub1_dollar_one (m b a cap : List Char) :
    getSub1 m b a cap ['$', '1'] = cap := by
  simp [getSub1]

theorem getSub1_dollar_free (m b a cap : List Char) :
    ∀ pfx : List Char, '$' ∉ pfx →
      getSub1 m b a cap (pfx ++ ['$', '1']) = pfx ++ cap := by
  intro pfx
  induction pfx with
  | nil =>
    intro _
    rw [List.nil_append, List.nil_append]
    exact getSub1_dollar_one m b a cap
  | cons c pfx2 ih =>
    intro h
    have hc : ¬ c = '$' := fun hEq => h (hEq ▸ List.mem_cons_self c pfx2)
    have h2 : '$' ∉ pfx2 := fun hm => h (List.mem_cons_of_mem c hm)
    rw [List.cons_append, getSub1_cons_ne m b a cap c _ hc, ih h2,
      List.cons_append]

theorem replaceNlDot_cons_ne (p pre : List Char) (c : Char)
    (rest : List Char) (hc : ¬ c = '\n') :
    replaceNlDot p pre (c :: rest) =
      c :: replaceNlDot p (pre ++ [c]) rest := by
  rw [replaceNlDot.eq_def]
  simp [hc]

theorem replaceNlDot_nl_dot (p pre : List Char) (c2 : Char)
    (rest2 : List Char) (hd : jsDot c2 = true) :
    replaceNlDot p pre ('\n' :: c2 :: rest2) =
      getSub1 ['\n', c2] pre rest2 [c2] ('\n' :: p ++ ['$', '1']) ++
        replaceNlDot p (pre ++ ['\n', c2]) rest2 := by
  rw [replaceNlDot.eq_def]
  simp [hd]

theorem splitNl_ne_nil (l : List Char) : splitNl l ≠ [] := by
  cases l with
  | nil => simp [splitNl]
  | cons c rest =>
    rw [splitNl.eq_def]
    by_cases hc : c = '\n'
    · simp [hc]
    · simp only [hc, if_false, ite_false]
      cases splitNl rest <;> simp

theorem splitNl_nl (rest : List Char) :
    splitNl ('\n' :: rest) = [] :: splitNl rest := by
  rw [splitNl.eq_def]
  simp

theorem splitNl_cons_ne (c : Char) (rest : List Char) (s0 : List Char)
    (ss : List (List Char)) (hc : ¬ c = '\n')
    (hsp : splitNl rest = s0 :: ss) :
    splitNl (c :: rest) = (c :: s0) :: ss := by
  rw [splitNl.eq_def]
  simp [hc, hsp]

theorem nlABD_cons_ne (c : Char) (rest : List Char) (hc : ¬ c = '\n') :
    nlAlwaysBeforeDot (c :: rest) = nlAlwaysBeforeDot rest := by
  rw [nlAlwaysBeforeDot.eq_def]
  simp [hc]

theorem nlABD_nl (c2 : Char) (rest2 : List Char) :
    nlAlwaysBeforeDot ('\n' :: c2 :: rest2) =
      (jsDot c2 && nlAlwaysBeforeDot (c2 :: rest2)) := by
  rw [nlAlwaysBeforeDot.eq_def]
  simp

theorem jsDot_ne_nl (c : Char) (h : jsDot c = true) : ¬ c = '\n' := by
  intro hEq
  subst hEq
  simp [jsDot] at h

theorem joinNl_one (a : List Char) : joinNl [a] = a := rfl

theorem joinNl_two (a b : List Char) (ls : List (List Char)) :
    joinNl (a :: b :: ls) = a ++ '\n' :: joinNl (b :: ls) := rfl

theorem prefixLines_agree_aux (p : List Char) (hp : '$' ∉ p) :
    ∀ l : List Char, nlAlwaysBeforeDot l = true → ∀ pre : List Char,
      p ++ replaceNlDot p pre l =
        joinNl ((splitNl l).map (fun x => p ++ x)) := by
  intro l
  induction l with
  | nil => intro _ pre; rfl
  | cons c rest ih =>
    intro h pre
    by_cases hc : c = '\n'
    · subst hc
      cases rest with
      | nil => simp [nlAlwaysBeforeDot] at h
      | cons c2 rest2 =>
        rw [nlABD_nl] at h
        simp only [Bool.and_eq_true] at h
        have hdot : jsDot c2 = true := h.1
        have htail : nlAlwaysBeforeDot (c2 :: rest2) = true := h.2
        have ih2 := ih htail (pre ++ ['\n'])
        have hnlp : '$' ∉ ('\n' :: p) := by
          intro hm
          cases List.mem_cons.mp hm with
          | inl h2 => exact absurd h2 (by decide)
          | inr h2 => exact hp h2
        have hsub : getSub1 ['\n', c2] pre rest2 [c2]
            ('\n' :: p ++ ['$', '1']) = '\n' :: p ++ [c2] :=
          getSub1_dollar_free ['\n', c2] pre rest2 [c2] ('\n' :: p) hnlp
        rw [replaceNlDot_nl_dot p pre c2 rest2 hdot, hsub, splitNl_nl,
          List.map_cons]
        cases hsp : splitNl (c2 :: rest2) with
        | nil => exact absurd hsp (splitNl_ne_nil _)
        | cons s0 ss =>
          rw [hsp, List.map_cons] at ih2
          rw [List.map_cons, joinNl_two, List.append_nil]
          rw [replaceNlDot_cons_ne p (pre ++ ['\n']) c2 rest2
            (jsDot_ne_nl c2 hdot)] at ih2
          rw [show (pre ++ ['\n']) ++ [c2] = pre ++ ['\n', c2] from by
            simp] at ih2
          rw [← ih2]
          simp [List.append_assoc]
    · rw [replaceNlDot_cons_ne p pre c rest hc]
      rw [nlABD_cons_ne c rest hc] at h
      have ih2 := ih h (pre ++ [c])
      cases hsp : splitNl rest with
      | nil => exact absurd hsp (splitNl_ne_nil _)
      | cons s0 ss =>
        rw [splitNl_cons_ne c rest s0 ss hc hsp, List.map_cons]
        rw [hsp, List.map_cons] at ih2
        cases ss with
        | nil =>
          rw [List.map_nil] at ih2 ⊢
          rw [joinNl_one] at ih2 ⊢
          rw [List.append_cancel_left ih2]
        | cons s1 ss1 =>
          rw [List.map_cons] at ih2 ⊢
          rw [joinNl_two] at ih2 ⊢
          have h3 : p ++ replaceNlDot p (pre ++ [c]) rest =
              p ++ (s0 ++ '\n' ::
                joinNl ((p ++ s1) :: List.map (fun x => p ++ x) ss1)) := by
            rw [ih2]
            simp [List.append_assoc]
          rw [List.append_cancel_left h3]
          simp [List.append_assoc]

/-- C8 (counterexample): a text with an empty line: the claim's reading
prefixes every line after a newline, but the source regex `\n(.)` needs a
character after the newline, so the empty middle line stays unprefixed. -/
theorem prefixLines_empty_line_cex :
    prefixLines "a\n\nb" "  " = "  a\n\n  b" ∧
    specPrefixLines "a\n\nb" "  " = "  a\n  \n  b" ∧
    ("  a\n\n  b" : String) ≠ "  a\n  \n  b" := by
  refine ⟨rfl, rfl, ?_⟩
  decide

/-- C8 (amended): when the prefix contains no dollar sign (JS applies
GetSubstitution to the replacement string `'\n' + prefix + '$1'`, so a
`$` inside the prefix is interpreted: at text `"a\nb"` and prefix `"$&"`
the program yields `"$&a\n\nbb"`) and every newline of the text is
immediately followed by a character that the JS regex dot matches (no
empty lines, no lines opening with a line terminator, no trailing
newline), `prefixLines` prepends the prefix to the first line and to every
line following an embedded newline — it agrees with the
split-prefix-rejoin reading.  The embedding is a pure function of its two
arguments, so it touches no generator state. -/
theorem prefixLines_spec_agreement (text pfx : String)
    (hd : '$' ∉ pfx.data) (h : nlAlwaysBeforeDot text.data = true) :
    prefixLines text pfx = specPrefixLines text pfx := by
  cases text with
  | mk tl =>
    cases pfx with
    | mk pl =>
      have key := prefixLines_agree_aux pl hd tl h []
      unfold prefixLines specPrefixLines
      exact congrArg String.mk key

/-- C8 (witness): the amended theorem at the concrete text `"a\nb"` with
the dollar-free prefix `"  "`. -/
theorem prefixLines_spec_agreement_witness :
    ('$' ∉ ("  " : String).data) ∧
    nlAlwaysBeforeDot ("a\nb".data) = true ∧
    prefixLines "a\nb" "  " = specPrefixLines "a\nb" "  " :=
  ⟨by decide, by decide,
   prefixLines_spec_agreement "a\nb" "  " (by decide) (by decide)⟩

/-! ## C4: workspaceToCode whitespace scrubbing -/

theorem lastNlIdx_lt (l : List Char) (i : Nat) (h : lastNlIdx l = some i) :
    i < l.length := by
  induction l generalizing i with
  | nil => simp [lastNlIdx] at h
  | cons c rest ih =>
    rw [lastNlIdx] at h
    cases hr : lastNlIdx rest with
    | some j =>
      rw [hr] at h
      injection h with h
      subst h
      have := ih j hr
      simp
      omega
    | none =>
      rw [hr] at h
      by_cases hc : c = '\n'
      · rw [if_pos hc] at h
        injection h with h
        subst h
        simp
      · rw [if_neg hc] at h
        cases h

theorem lastNlIdx_of_mem (l : List Char) (h : '\n' ∈ l) :
    ∃ i, lastNlIdx l = some i := by
  induction l with
  | nil => cases h
  | cons c rest ih =>
    rw [lastNlIdx]
    cases hr : lastNlIdx rest with
    | some j => exact ⟨j + 1, rfl⟩
    | none =>
      have hc : c = '\n' := by
        cases List.mem_cons.mp h with
        | inl h2 => exact h2.symm
        | inr h2 =>
          obtain ⟨j, hj⟩ := ih h2
          rw [hj] at hr
          cases hr
      exact ⟨0, by rw [if_pos hc]⟩

theorem lastNlIdx_zero (l : List Char) (h : lastNlIdx l = some 0) :
    ∃ tail, l = '\n' :: tail ∧ '\n' ∉ tail := by
  cases l with
  | nil => simp [lastNlIdx] at h
  | cons c rest =>
    rw [lastNlIdx] at h
    cases hr : lastNlIdx rest with
    | some j => rw [hr] at h; injection h with h; cases h
    | none =>
      rw [hr] at h
      by_cases hc : c = '\n'
      · subst hc
        refine ⟨rest, rfl, ?_⟩
        intro hmem
        obtain ⟨j, hj⟩ := lastNlIdx_of_mem rest hmem
        rw [hj] at hr
        cases hr
      · rw [if_neg hc] at h
        cases h

theorem lastNlIdx_drop (l : List Char) (i : Nat) (h : lastNlIdx l = some i) :
    '\n' ∉ l.drop (i + 1) := by
  induction l generalizing i with
  | nil => simp
  | cons c rest ih =>
    rw [lastNlIdx] at h
    cases hr : lastNlIdx rest with
    | some j =>
      rw [hr] at h
      injection h with h
      subst h
      simpa using ih j hr
    | none =>
      rw [hr] at h
      by_cases hc : c = '\n'
      · rw [if_pos hc] at h
        injection h with h
        subst h
        simp
        intro hmem
        obtain ⟨j, hj⟩ := lastNlIdx_of_mem rest hmem
        rw [hj] at hr
        cases hr
      · rw [if_neg hc] at h
        cases h

theorem dropWhile_head_false (p : Char → Bool) :
    ∀ (l : List Char) (x : Char), (l.dropWhile p).head? = some x →
      p x = false := by
  intro l
  induction l with
  | nil => intro x h; simp [List.dropWhile] at h
  | cons c rest ih =>
    intro x h
    rw [List.dropWhile] at h
    by_cases hc : p c = true
    · rw [hc] at h
      exact ih x h
    · have hc2 : p c = false := by
        cases hpc : p c
        · rfl
        · exact absurd hpc hc
      rw [hc2] at h
      simp at h
      subst h
      exact hc2

theorem replaceLineTrailingWs_cons (c : Char) (rest : List Char) :
    replaceLineTrailingWs (c :: rest) =
      trimStep c (replaceLineTrailingWs rest) := rfl

theorem trimStep_pos (c : Char) (r : List Char)
    (h : (c = ' ' ∨ c = '\t') ∧ r.head? = some '\n') :
    trimStep c r = r := by
  unfold trimStep
  rw [if_pos h]

theorem trimStep_neg (c : Char) (r : List Char)
    (h : ¬ ((c = ' ' ∨ c = '\t') ∧ r.head? = some '\n')) :
    trimStep c r = c :: r := by
  unfold trimStep
  rw [if_neg h]

theorem noHWs_trim : ∀ l : List Char,
    noHWsBeforeNl (replaceLineTrailingWs l) = true := by
  intro l
  induction l with
  | nil => rfl
  | cons c rest ih =>
    rw [replaceLineTrailingWs_cons]
    by_cases hcond : (c = ' ' ∨ c = '\t') ∧
        (replaceLineTrailingWs rest).head? = some '\n'
    · rw [trimStep_pos c _ hcond]
      exact ih
    · rw [trimStep_neg c _ hcond]
      rw [noHWsBeforeNl.eq_def]
      dsimp only
      rw [if_neg hcond]
      exact ih

theorem foldr_trim_suffix : ∀ (D q : List Char),
    ∃ Z, D.foldr trimStep q = Z ++ q := by
  intro D q
  induction D with
  | nil => exact ⟨[], rfl⟩
  | cons c D2 ih =>
    obtain ⟨Z, hZ⟩ := ih
    rw [List.foldr_cons]
    by_cases hcond : (c = ' ' ∨ c = '\t') ∧
        (D2.foldr trimStep q).head? = some '\n'
    · rw [trimStep_pos c _ hcond]
      exact ⟨Z, hZ⟩
    · rw [trimStep_neg c _ hcond]
      rw [hZ]
      exact ⟨c :: Z, rfl⟩

theorem foldr_trim_pre (pre : List Char) (hpre : '\n' ∉ pre) :
    ∃ m, pre.foldr trimStep ['\n'] = m ++ ['\n'] ∧ '\n' ∉ m := by
  induction pre with
  | nil => exact ⟨[], rfl, by simp⟩
  | cons c pre2 ih =>
    have hc : ¬ c = '\n' := fun hEq => hpre (hEq ▸ List.mem_cons_self c pre2)
    have hpre2 : '\n' ∉ pre2 := fun hm => hpre (List.mem_cons_of_mem c hm)
    obtain ⟨m, hm, hmnl⟩ := ih hpre2
    rw [List.foldr_cons]
    by_cases hcond : (c = ' ' ∨ c = '\t') ∧
        (pre2.foldr trimStep ['\n']).head? = some '\n'
    · rw [trimStep_pos c _ hcond]
      exact ⟨m, hm, hmnl⟩
    · rw [trimStep_neg c _ hcond]
      rw [hm]
      refine ⟨c :: m, rfl, ?_⟩
      intro hmem
      cases List.mem_cons.mp hmem with
      | inl h2 => exact hc h2.symm
      | inr h2 => exact hmnl h2

theorem endsOne_concat (Z : List Char) (c : Char) (m : List Char)
    (hc : ¬ c = '\n') (hm : '\n' ∉ m) :
    endsExactlyOneNl (Z ++ (c :: m) ++ ['\n']) = true := by
  unfold endsExactlyOneNl
  rw [List.reverse_append, List.reverse_append, List.reverse_cons]
  simp only [List.reverse_cons, List.singleton_append, List.cons_append]
  cases hmr : m.reverse with
  | nil =>
    simp only [hmr, List.nil_append, List.cons_append]
    simp [hc]
  | cons y ys =>
    have hy : y ∈ m := by
      have h2 : y ∈ m.reverse := by rw [hmr]; exact List.mem_cons_self y ys
      exact List.mem_reverse.mp h2
    have hyne : ¬ y = '\n' := fun hEq => hm (hEq ▸ hy)
    simp only [hmr, List.cons_append]
    simp [hyne]

theorem trim_of_shape (D : List Char) (c : Char) (pre : List Char)
    (hc : isJsWs c = false) (hpre : '\n' ∉ pre) :
    endsExactlyOneNl
      (replaceLineTrailingWs ((D ++ [c]) ++ pre ++ ['\n'])) = true := by
  have hshape : (D ++ [c]) ++ pre ++ ['\n'] =
      D ++ ([c] ++ (pre ++ ['\n'])) := by
    simp [List.append_assoc]
  rw [hshape]
  unfold replaceLineTrailingWs
  rw [List.foldr_append, List.foldr_append, List.foldr_append]
  rw [show (['\n'] : List Char).foldr trimStep [] = ['\n'] from rfl]
  obtain ⟨m, hm, hmnl⟩ := foldr_trim_pre pre hpre
  rw [hm]
  have hcs : ¬ c = ' ' := by
    intro hEq
    subst hEq
    simp [isJsWs] at hc
  have hct : ¬ c = '\t' := by
    intro hEq
    subst hEq
    simp [isJsWs] at hc
  have hcn : ¬ c = '\n' := by
    intro hEq
    subst hEq
    simp [isJsWs] at hc
  have hfold1 : ([c] : List Char).foldr trimStep (m ++ ['\n']) =
      (c :: m) ++ ['\n'] := by
    rw [List.foldr_cons, List.foldr_nil]
    apply trimStep_neg
    intro hcond
    cases hcond.1 with
    | inl h2 => exact hcs h2
    | inr h2 => exact hct h2
  rw [hfold1]
  obtain ⟨Z, hZ⟩ := foldr_trim_suffix D ((c :: m) ++ ['\n'])
  rw [hZ]
  rw [show Z ++ ((c :: m) ++ ['\n']) = Z ++ (c :: m) ++ ['\n'] from by
    simp [List.append_assoc]]
  exact endsOne_concat Z c m hcn hmnl

theorem trailScrub_shape (u : List Char)
    (hnw : u.any (fun c => !(isJsWs c)) = true)
    (hnl : u.getLast? = some '\n') :
    ∃ D c pre, isJsWs c = false ∧ '\n' ∉ pre ∧
      replaceTrailingBlank u = (D ++ [c]) ++ pre ++ ['\n'] := by
  have hr : u.reverse.head? = some '\n' := by
    rw [List.head?_reverse]
    exact hnl
  have hcore_ne : u.reverse.dropWhile isJsWs ≠ [] := by
    intro hEq
    have hall : ∀ x ∈ u.reverse, isJsWs x = true := by
      intro x hx
      have := List.dropWhile_eq_nil_iff.mp hEq
      exact this x hx
    obtain ⟨c0, hc0mem, hc0⟩ := List.any_eq_true.mp hnw
    have := hall c0 (List.mem_reverse.mpr hc0mem)
    rw [this] at hc0
    simp at hc0
  obtain ⟨c0, core2, hcore⟩ := List.exists_cons_of_ne_nil hcore_ne
  have hc0ws : isJsWs c0 = false := by
    apply dropWhile_head_false isJsWs u.reverse
    rw [hcore]
    rfl
  have hwhead : (u.reverse.takeWhile isJsWs).head? = some '\n' := by
    cases hu : u.reverse with
    | nil => rw [hu] at hr; cases hr
    | cons x rest =>
      rw [hu] at hr
      injection hr with hr
      subst hr
      rw [List.takeWhile_cons]
      rw [show isJsWs '\n' = true from rfl]
      rfl
  have hwmem : '\n' ∈ u.reverse.takeWhile isJsWs := by
    cases hw : u.reverse.takeWhile isJsWs with
    | nil => rw [hw] at hwhead; cases hwhead
    | cons x rest =>
      rw [hw] at hwhead
      injection hwhead with hwhead
      subst hwhead
      exact List.mem_cons_self _ _
  obtain ⟨i, hi⟩ := lastNlIdx_of_mem _ hwmem
  have hu_split : u = (u.reverse.dropWhile isJsWs).reverse ++
      (u.reverse.takeWhile isJsWs).reverse := by
    have h2 : u.reverse.takeWhile isJsWs ++ u.reverse.dropWhile isJsWs =
        u.reverse := List.takeWhile_append_dropWhile isJsWs u.reverse
    have h3 := congrArg List.reverse h2
    rw [List.reverse_append, List.reverse_reverse] at h3
    exact h3.symm
  have hcore_rev : (u.reverse.dropWhile isJsWs).reverse =
      core2.reverse ++ [c0] := by
    rw [hcore, List.reverse_cons]
  by_cases h1 : 1 ≤ i
  · -- the regex matches: the source replaces the tail
    refine ⟨core2.reverse, c0, ((u.reverse.takeWhile isJsWs).drop (i + 1)).reverse,
      hc0ws, ?_, ?_⟩
    · intro hmem
      exact lastNlIdx_drop _ i hi (List.mem_reverse.mp hmem)
    · unfold replaceTrailingBlank
      dsimp only
      rw [hi]
      dsimp only
      rw [if_pos h1]
      rw [hcore_rev]
  · -- no match: the last newline of the trailing run is the final character
    have hi0 : i = 0 := by omega
    subst hi0
    obtain ⟨tail, htail, htailnl⟩ := lastNlIdx_zero _ hi
    refine ⟨core2.reverse, c0, tail.reverse, hc0ws, ?_, ?_⟩
    · intro hmem
      exact htailnl (List.mem_reverse.mp hmem)
    · unfold replaceTrailingBlank
      dsimp only
      rw [hi]
      dsimp only
      rw [if_neg (by decide : ¬ (1 : Nat) ≤ 0)]
      conv_lhs => rw [hu_split]
      rw [hcore_rev, htail, List.reverse_cons]
      simp [List.append_assoc]

theorem leadScrub_preserves (t : List Char)
    (hnw : t.any (fun c => !(isJsWs c)) = true)
    (hnl : t.getLast? = some '\n') :
    (replaceLeadingBlank t).any (fun c => !(isJsWs c)) = true ∧
    (replaceLeadingBlank t).getLast? = some '\n' := by
  have hdrop : ∃ k, replaceLeadingBlank t = t.drop k ∧
      k ≤ (t.takeWhile isJsWs).length := by
    unfold replaceLeadingBlank
    dsimp only
    cases hlw : lastNlIdx (t.takeWhile isJsWs) with
    | none => exact ⟨0, rfl, Nat.zero_le _⟩
    | some i =>
      dsimp only
      by_cases h1 : 1 ≤ i
      · rw [if_pos h1]
        exact ⟨i + 1, rfl, lastNlIdx_lt _ i hlw⟩
      · rw [if_neg h1]
        exact ⟨0, rfl, Nat.zero_le _⟩
  obtain ⟨k, hk, hkle⟩ := hdrop
  have hsplit : t = t.takeWhile isJsWs ++ t.dropWhile isJsWs :=
    (List.takeWhile_append_dropWhile isJsWs t).symm
  have hdw_ne : t.dropWhile isJsWs ≠ [] := by
    intro hEq
    obtain ⟨c0, hc0mem, hc0⟩ := List.any_eq_true.mp hnw
    have := List.dropWhile_eq_nil_iff.mp hEq c0 hc0mem
    rw [this] at hc0
    simp at hc0
  have hdropk : t.drop k = (t.takeWhile isJsWs).drop k ++ t.dropWhile isJsWs := by
    conv_lhs => rw [hsplit]
    exact List.drop_append_of_le_length hkle
  constructor
  · rw [hk, hdropk, List.any_append]
    obtain ⟨c0, hc0mem, hc0⟩ := List.any_eq_true.mp hnw
    have hc0dw : c0 ∈ t.dropWhile isJsWs := by
      have hc0nws : ¬ isJsWs c0 = true := by
        simp at hc0
        simp [hc0]
      rcases List.mem_append.mp (hsplit ▸ hc0mem) with h2 | h2
      · exact absurd (List.mem_takeWhile_imp h2) hc0nws
      · exact h2
    have : (t.dropWhile isJsWs).any (fun c => !(isJsWs c)) = true :=
      List.any_eq_true.mpr ⟨c0, hc0dw, hc0⟩
    rw [this, Bool.or_true]
  · rw [hk, hdropk, List.getLast?_append_of_ne_nil _ hdw_ne]
    rw [hsplit] at hnl
    rw [List.getLast?_append_of_ne_nil _ hdw_ne] at hnl
    exact hnl

theorem pipeline_normalizes (t : List Char)
    (hnw : t.any (fun c => !(isJsWs c)) = true)
    (hnl : t.getLast? = some '\n') :
    endsExactlyOneNl (replaceLineTrailingWs
      (replaceTrailingBlank (replaceLeadingBlank t))) = true ∧
    noHWsBeforeNl (replaceLineTrailingWs
      (replaceTrailingBlank (replaceLeadingBlank t))) = true := by
  refine ⟨?_, noHWs_trim _⟩
  obtain ⟨hnw2, hnl2⟩ := leadScrub_preserves t hnw hnl
  obtain ⟨D, c, pre, hc, hpre, hshape⟩ :=
    trailScrub_shape (replaceLeadingBlank t) hnw2 hnl2
  rw [hshape]
  exact trim_of_shape D c pre hc hpre

/-- C4 (counterexample): with an identity `finish` hook and one block
translating to `"abc"`, `workspaceToCode` returns `"abc"`: the output does
not end with a newline at all, so it cannot end with exactly one.  None of
the three scrubbing regexes ever appends a newline. -/
theorem workspaceToCode_no_trailing_newline_cex :
    workspaceToCode fixGen [fixAbc] = .ok "abc" ∧
    endsExactlyOneNl ("abc" : String).data = false := by
  refine ⟨rfl, ?_⟩
  decide

/-- C4 (amended): when the `finish` hook only produces text that contains a
non-whitespace character and ends with a newline, the string returned by
`workspaceToCode` ends with exactly one newline and carries no space or tab
immediately before any newline.  (Without this condition on `finish` none
of the three guarantees need hold, and the no-leading-blank-line guarantee
can fail even with it: finish output `"\n x\n"` passes through all three
regexes unchanged.) -/
theorem workspaceToCode_ws_normalized (gen : Generator) (blocks : List Block)
    (s : String)
    (hfin : ∀ x : String, (gen.finish x).data.any (fun c => !(isJsWs c)) = true ∧
      (gen.finish x).data.getLast? = some '\n')
    (hout : workspaceToCode gen blocks = .ok s) :
    endsExactlyOneNl s.data = true ∧ noHWsBeforeNl s.data = true := by
  unfold workspaceToCode at hout
  cases htl : topBlockLines gen blocks with
  | error e => rw [htl] at hout; cases hout
  | ok lines =>
    rw [htl] at hout
    dsimp only at hout
    have hs : String.mk (replaceLineTrailingWs (replaceTrailingBlank
        (replaceLeadingBlank (gen.finish (String.intercalate "\n" lines)).data))) = s := by
      injection hout
    rw [← hs]
    exact pipeline_normalizes _ (hfin _).1 (hfin _).2

/-- C4 (witness): the amended theorem at a concrete generator whose finish
hook prepends a definition line and appends a newline. -/
theorem workspaceToCode_ws_normalized_witness :
    endsExactlyOneNl (("def helper()\nabc\n" : String)).data = true ∧
    noHWsBeforeNl (("def helper()\nabc\n" : String)).data = true :=
  workspaceToCode_ws_normalized fixGenNl [fixAbc] "def helper()\nabc\n"
    (by
      intro x
      constructor
      · show (("def helper()\n" ++ x ++ "\n" : String)).data.any
          (fun c => !(isJsWs c)) = true
        rw [String.data_append, String.data_append, List.any_append,
          List.any_append]
        rw [show ("def helper()\n" : String).data.any
          (fun c => !(isJsWs c)) = true from by decide]
        rfl
      · show (("def helper()\n" ++ x ++ "\n" : String)).data.getLast? =
          some '\n'
        rw [String.data_append, String.data_append]
        rw [List.getLast?_append_of_ne_nil _ (by decide :
          ("\n" : String).data ≠ [])]
        rfl)
    rfl
